import Mathlib

/-!
Verification development for the epub-reader streaming TTS pipeline.

Definitions are shallow embeddings of:
- `src/public/kokoro/worker.js` (synthesis worker: generation loop, stop flag,
  bounded buffer counter) as a labelled transition system, and
- `src/src/app/page.tsx` (session controller: message handler, playback
  accounting, slicing, pause/resume).

Text is modelled as `List Char`; the JS `number` values that hold percentages
are modelled as `ℚ`; the buffer-depth counter is modelled as `ℤ` so that the
`Math.max(0, x - 1)` floor in the source is represented literally.
-/

namespace EpubReader

/-- JS whitespace test used throughout (`\s` on the characters that occur
in normalized text; `normalizeForPlayback` collapses all whitespace runs to
single spaces, but we keep the common whitespace characters). -/
def isWhite (c : Char) : Bool :=
  c = ' ' || c = '\t' || c = '\n' || c = '\r'

/-! ## Controller state and worker-message handler (page.tsx) -/

/-- One decoded audio unit as queued by `enqueueAudio` in page.tsx:
the decoded samples plus the chunk's source text. -/
structure AudioUnit where
  samples : List Int
  text : String
deriving DecidableEq, Repr

/-- Controller-side mutable state touched by the worker-message handler and
the playback loop in page.tsx (`isStreaming`/`isStreamingRef`,
`statusMessage`, `streamingProgress`, `queueRef`, `totalChunksRef`,
`processedChunksRef`). -/
structure CState where
  isStreaming : Bool
  statusMessage : String
  streamingProgress : Nat
  queue : List AudioUnit
  totalChunks : Nat
  processedChunks : Nat
deriving DecidableEq, Repr

/-- Messages from the worker that drive the streaming part of the
controller's `handleMessage` switch in page.tsx. -/
inductive WorkerMsg where
  | chunkCount (n : Nat)
  | streamAudioData (u : AudioUnit)
  | complete
  | error (e : String)
deriving DecidableEq, Repr

/-- `enqueueAudio` from page.tsx: drops the unit when no session is active
(`if (!isStreamingRef.current) return;`), otherwise pushes it onto the
playback queue and invokes `playQueue`. The boolean reports whether
`playQueue` was invoked. -/
def enqueueAudio (st : CState) (u : AudioUnit) : CState × Bool :=
  if st.isStreaming then ({ st with queue := st.queue ++ [u] }, true)
  else (st, false)

/-- The streaming cases of `handleMessage` in page.tsx. The boolean reports
whether `playQueue` was invoked by the handler. -/
def handleMessage (st : CState) (m : WorkerMsg) : CState × Bool :=
  match m with
  | WorkerMsg.chunkCount n =>
      ({ st with totalChunks := n, processedChunks := 0, streamingProgress := 0 }, false)
  | WorkerMsg.streamAudioData u => enqueueAudio st u
  | WorkerMsg.complete =>
      ({ st with isStreaming := false, statusMessage := "Streaming complete",
                 streamingProgress := 100, queue := [] }, false)
  | WorkerMsg.error e =>
      ({ st with statusMessage := "Error: " ++ e, isStreaming := false }, false)

/-- `Math.round((p / t) * 100)` on naturals: JS rounds half away from zero,
which for nonnegative arguments is `⌊100p/t + 1/2⌋ = (200p + t) / (2t)`. -/
def jsRound100 (p t : Nat) : Nat :=
  (200 * p + t) / (2 * t)

/-- End-of-unit accounting in `playQueue` (page.tsx lines 163-170): increment
`processedChunks`, then if `totalChunks > 0` publish
`min(round(processed/total*100), 99)` as the streaming progress. -/
def unitEnded (st : CState) : CState :=
  let p := st.processedChunks + 1
  let st1 := { st with processedChunks := p }
  if 0 < st.totalChunks then
    { st1 with streamingProgress := min (jsRound100 p st.totalChunks) 99 }
  else st1

/-- `unitEnded` does not touch the pending queue. -/
theorem unitEnded_queue (st : CState) : (unitEnded st).queue = st.queue := by
  unfold unitEnded
  dsimp only
  split <;> rfl

/-- The draining loop of `playQueue` in page.tsx: while the queue is
non-empty, pop the head, play it, and run the end-of-unit accounting. The
loop condition checks only queue emptiness, not `isStreaming`. -/
def playQueueRun (st : CState) : CState :=
  match h : st.queue with
  | [] => st
  | _ :: rest => playQueueRun (unitEnded { st with queue := rest })
termination_by st.queue.length
decreasing_by
  have hq : (unitEnded { st with queue := rest }).queue = rest := by
    rw [unitEnded_queue]
  rw [hq, h]
  simp

/-! ## Word boundaries and highlight clamp (page.tsx) -/

/-- One pass of the regex loop in `getWordBoundaries`
(`/(\S+)(\s*)/g`): skip whitespace the regex scanner passes over, measure the
matched word plus its trailing whitespace, and record the running sum. -/
def wordsGo (cs : List Char) (sum : Nat) : List Nat :=
  match h : cs.dropWhile (fun c => isWhite c) with
  | [] => []
  | a :: t =>
    let m := ((a :: t).takeWhile (fun c => !isWhite c)).length +
      (((a :: t).dropWhile (fun c => !isWhite c)).takeWhile (fun c => isWhite c)).length
    (sum + m) ::
      wordsGo (((a :: t).dropWhile (fun c => !isWhite c)).dropWhile (fun c => isWhite c))
        (sum + m)
termination_by cs.length
decreasing_by
  have h1 : (cs.dropWhile (fun c => isWhite c)).Sublist cs := List.dropWhile_sublist _
  have h2 : (a :: t).length ≤ cs.length := by
    rw [← h]
    exact h1.length_le
  have ha : isWhite a = false := by
    have hne : cs.dropWhile (fun c => isWhite c) ≠ [] := by
      rw [h]
      simp
    have hh := List.head_dropWhile_not (fun c => isWhite c) cs hne
    have h7 : (cs.dropWhile (fun c => isWhite c)).head? = some a := by
      rw [h]
      rfl
    have h8 := List.head?_eq_head hne
    rw [h7] at h8
    have h9 : a = (cs.dropWhile (fun c => isWhite c)).head hne := Option.some.inj h8
    rw [← h9] at hh
    exact hh
  have hd1 : (a :: t).dropWhile (fun c => !isWhite c) = t.dropWhile (fun c => !isWhite c) := by
    rw [List.dropWhile_cons]
    simp [ha]
  rw [hd1]
  have h3 : (t.dropWhile (fun c => !isWhite c)).Sublist t := List.dropWhile_sublist _
  have h4 : ((t.dropWhile (fun c => !isWhite c)).dropWhile (fun c => isWhite c)).Sublist
      (t.dropWhile (fun c => !isWhite c)) := List.dropWhile_sublist _
  have h5 := h3.length_le
  have h6 := h4.length_le
  simp only [List.length_cons] at h2
  omega

/-- `getWordBoundaries` from page.tsx: cumulative offsets starting at 0, one
entry per `\S+\s*` match; if no match was found, push the full text length so
the list always has at least two entries. -/
def getWordBoundaries (text : List Char) : List Nat :=
  match wordsGo text 0 with
  | [] => [0, text.length]
  | l => 0 :: l

/-- `totalWords` in `playQueue`: `Math.max(1, boundaries.length - 1)`. -/
def totalWords (text : List Char) : Nat :=
  max 1 ((getWordBoundaries text).length - 1)

/-- The word-index computation of the highlight `step` callback in
page.tsx: `Math.min(totalWords, Math.floor(pct * totalWords))` where
`pct ∈ [0, 1]` is the clamped elapsed fraction. -/
def wordsRead (text : List Char) (pct : ℚ) : Nat :=
  min (totalWords text) (Int.toNat ⌊pct * (totalWords text : ℚ)⌋)

/-! ## Slicing from a percentage (page.tsx) -/

/-- `String.prototype.indexOf(c, start)`: index of the first occurrence of
`c` at an index `≥ start`, if any. -/
def indexOfFrom (cs : List Char) (c : Char) (start : Nat) : Option Nat :=
  (List.range cs.length).find? (fun i => decide (start ≤ i) && decide (cs[i]? = some c))

/-- The start index computed by `sliceTextFromPercent` in page.tsx: clamp the
percentage to [0,100], take `Math.floor((pct/100) * length)`, then jump past
the next space found at an index `≥ startIndex + 1`; if there is none, keep
the raw `startIndex`. -/
def sliceStart (text : List Char) (percent : ℚ) : Nat :=
  let pct := min 100 (max 0 percent)
  let startIndex := Int.toNat ⌊pct / 100 * (text.length : ℚ)⌋
  match indexOfFrom text ' ' (startIndex + 1) with
  | some i => i + 1
  | none => startIndex

/-- `sliceTextFromPercent` from page.tsx: empty text yields the empty string,
otherwise the suffix of the text from `sliceStart`. -/
def sliceTextFromPercent (text : List Char) (percent : ℚ) : List Char :=
  if text = [] then [] else text.drop (sliceStart text percent)

/-- Raw character position corresponding to a percentage, as computed by
`startStreamingFrom` (`Math.floor((percent / 100) * length)`). -/
def offsetChars (text : List Char) (percent : ℚ) : Nat :=
  Int.toNat ⌊percent / 100 * (text.length : ℚ)⌋

/-- Whether a slice beginning at index `i` of `text` starts strictly inside a
word: the index is neither 0 nor past the end, and both the preceding and the
current character are non-whitespace. -/
def startsMidWord (text : List Char) (i : Nat) : Bool :=
  decide (0 < i) &&
    (match text[i - 1]? with | some c => !isWhite c | none => false) &&
    (match text[i]? with | some c => !isWhite c | none => false)

/-! ## Session controller state machine (page.tsx) -/

/-- UI-level session state owned by the controller in page.tsx:
`streamBaseOffset`, `streamingProgress` (as the number fed into effective
progress), `isStreaming`, `statusMessage`, `currentText`, `readChars`. -/
structure UiState where
  base : ℚ
  progress : ℚ
  isStreaming : Bool
  statusMessage : String
  text : List Char
  readChars : Nat
deriving DecidableEq, Repr

/-- `getEffectiveProgress` from page.tsx:
`Math.min(100, streamBaseOffset + streamingProgress * (1 - streamBaseOffset / 100))`. -/
def getEffectiveProgress (st : UiState) : ℚ :=
  min 100 (st.base + st.progress * (1 - st.base / 100))

/-- `stopAudio(resetOffset)` from page.tsx, restricted to the session fields:
stop streaming and reset the streaming progress; when `resetOffset` is true
also reset the base offset and the read-character offset. -/
def stopAudio (st : UiState) (resetOffset : Bool) : UiState :=
  let st1 := { st with isStreaming := false, progress := 0 }
  if resetOffset then { st1 with base := 0, readChars := 0 } else st1

/-- JS `x || 0` on a numeric value: 0 (falsy) maps to 0, anything else to
itself. -/
def orZero (q : ℚ) : ℚ :=
  if q = 0 then 0 else q

/-- `startStreamingFrom(percent)` from page.tsx: slice the text; with an
empty slice, only set a status message and start nothing; otherwise set the
read pointer, stop the previous pipeline keeping the offset, record the new
base offset, mark streaming, and post the sliced text to the worker (returned
as `some sliced`). -/
def startStreamingFrom (st : UiState) (percent : ℚ) : UiState × Option (List Char) :=
  let sliced := sliceTextFromPercent st.text percent
  if sliced = [] then
    ({ st with statusMessage := "No text to stream yet." }, none)
  else
    let st1 := stopAudio { st with readChars := offsetChars st.text percent } false
    ({ st1 with base := percent, isStreaming := true,
                statusMessage := "Generating audio...", progress := 0 }, some sliced)

/-- `startStreaming` from page.tsx (the Play/Pause button): while streaming it
pauses — capture the effective progress, stop keeping the offset, store the
capture as the new base; otherwise it resumes from `streamBaseOffset || 0`. -/
def startStreaming (st : UiState) : UiState × Option (List Char) :=
  if st.isStreaming then
    let pausePoint := getEffectiveProgress st
    let st1 := stopAudio st false
    ({ st1 with base := pausePoint, statusMessage := "Paused" }, none)
  else
    startStreamingFrom st (orZero st.base)

/-! ## Synthesis worker transition system (worker.js) -/

/-- `MAX_QUEUE_SIZE` from worker.js. -/
def MAX_QUEUE_SIZE : ℤ := 6

/-- Resting points of the generation task in worker.js, i.e. the `await`
points where the worker's event loop can process incoming messages, plus the
terminated state. `sleeping` is the `setTimeout` await inside the
backpressure wait loop; `generating` is the `await tts.generate(...)`. -/
inductive WPc where
  | sleeping
  | generating
  | finished
deriving DecidableEq, Repr

/-- Configuration of the worker while one generation request is being
processed: the chunks not yet emitted, the `bufferQueueSize` counter, the
`shouldStop` flag, and the resting point of the task. -/
structure WCfg where
  pending : List String
  depth : ℤ
  stopped : Bool
  pc : WPc
deriving DecidableEq, Repr

/-- Messages posted by the worker during one generation request. -/
inductive WEv where
  | chunkCount (n : Nat)
  | streamAudio (c : String)
  | complete
  | error (e : String)
deriving DecidableEq, Repr

def isCompleteEv : WEv → Bool
  | WEv.complete => true
  | _ => false

def isErrorEv : WEv → Bool
  | WEv.error _ => true
  | _ => false

def isAudioEv : WEv → Bool
  | WEv.streamAudio _ => true
  | _ => false

/-- The atomic code run at the top of each `for` iteration (and after the
final one) when `shouldStop` is false: with no chunks left, post `complete`
and finish; otherwise enter the backpressure wait loop when the buffer is
full, else start generating. There is no `await` between these checks in
worker.js, so they form one transition. -/
def enterLoop (pending : List String) (depth : ℤ) : WCfg × List WEv :=
  match pending with
  | [] => (⟨[], depth, false, WPc.finished⟩, [WEv.complete])
  | _ :: _ =>
    if MAX_QUEUE_SIZE ≤ depth then (⟨pending, depth, false, WPc.sleeping⟩, [])
    else (⟨pending, depth, false, WPc.generating⟩, [])

/-- Start of one generation request in worker.js: `shouldStop = false`, the
text is chunked, `chunk_count` is posted, and the loop is entered — all
before the first `await`. `d0` is the value of the global `bufferQueueSize`
when the request starts. -/
def startRun (chunks : List String) (d0 : ℤ) : WCfg × List WEv :=
  let r := enterLoop chunks d0
  (r.1, WEv.chunkCount chunks.length :: r.2)

/-- One transition of the worker. `envStop` and `envBuf` are the `stop` and
`buffer_processed` message handlers, runnable whenever the generation task is
suspended (every resting `WPc`); the rest are the atomic segments of the
generation task between two `await`s, taken from worker.js lines 94-132. -/
inductive WStep : WCfg → List WEv → WCfg → Prop where
  | envStop (p : List String) (d : ℤ) (s : Bool) (pc : WPc) :
      WStep ⟨p, d, s, pc⟩ [] ⟨p, 0, true, pc⟩
  | envBuf (p : List String) (d : ℤ) (s : Bool) (pc : WPc) :
      WStep ⟨p, d, s, pc⟩ [] ⟨p, max 0 (d - 1), s, pc⟩
  | wakeStop (p : List String) (d : ℤ) :
      WStep ⟨p, d, true, WPc.sleeping⟩ [WEv.complete] ⟨p, d, true, WPc.finished⟩
  | wakeWait (p : List String) (d : ℤ) :
      MAX_QUEUE_SIZE ≤ d →
      WStep ⟨p, d, false, WPc.sleeping⟩ [] ⟨p, d, false, WPc.sleeping⟩
  | wakeGo (p : List String) (d : ℤ) :
      d < MAX_QUEUE_SIZE →
      WStep ⟨p, d, false, WPc.sleeping⟩ [] ⟨p, d, false, WPc.generating⟩
  | genStop (p : List String) (d : ℤ) :
      WStep ⟨p, d, true, WPc.generating⟩ [WEv.complete] ⟨p, d, true, WPc.finished⟩
  | genOk (c : String) (rest : List String) (d : ℤ) :
      WStep ⟨c :: rest, d, false, WPc.generating⟩
        (WEv.streamAudio c :: (enterLoop rest (d + 1)).2)
        (enterLoop rest (d + 1)).1
  | genErr (p : List String) (d : ℤ) (s : Bool) (e : String) :
      WStep ⟨p, d, s, WPc.generating⟩ [WEv.error e] ⟨p, d, s, WPc.finished⟩

/-- Multi-step execution accumulating the posted messages. -/
inductive WRun : WCfg → List WEv → WCfg → Prop where
  | refl (c : WCfg) : WRun c [] c
  | step {a b c' : WCfg} {evs tr : List WEv} :
      WStep a evs b → WRun b tr c' → WRun a (evs ++ tr) c'

/-! ## Text chunker (semantic-split.js, not present under src/) -/

/-- Sentence-ending punctuation, first-priority split class. -/
def isSentencePunct (c : Char) : Bool :=
  c = '.' || c = '!' || c = '?'

/-- Clause punctuation (commas, semicolons), second-priority split class. -/
def isClausePunct (c : Char) : Bool :=
  c = ',' || c = ';'

/-- Whether cutting just before index `p` leaves whitespace (or the end of
the text) on the right of the cut. -/
def whiteAfter (s : List Char) (p : Nat) : Bool :=
  decide (p = s.length) ||
    (match s[p]? with | some c => isWhite c | none => false)

/-- First-priority cut position: the character before the cut is
sentence-ending punctuation and the cut lands on a word boundary. -/
def cutTier1 (s : List Char) (p : Nat) : Bool :=
  (match s[p - 1]? with | some c => isSentencePunct c | none => false) && whiteAfter s p

/-- Second-priority cut position: clause punctuation before the cut, word
boundary at the cut. -/
def cutTier2 (s : List Char) (p : Nat) : Bool :=
  (match s[p - 1]? with | some c => isClausePunct c | none => false) && whiteAfter s p

/-- Third-priority cut position: the character before the cut is whitespace. -/
def cutTier3 (s : List Char) (p : Nat) : Bool :=
  match s[p - 1]? with | some c => isWhite c | none => false

/-- Largest position in `[1, n]` satisfying the predicate, if any. -/
def searchDown (pred : Nat → Bool) : Nat → Option Nat
  | 0 => none
  | p + 1 => if pred (p + 1) then some (p + 1) else searchDown pred p

/-- Best cut position at most `targetSize` into `s`: the rightmost
sentence-punctuation boundary, else the rightmost clause-punctuation
boundary, else the rightmost whitespace boundary. -/
def findSplit (s : List Char) (target : Nat) : Option Nat :=
  (searchDown (cutTier1 s) (min target s.length)).orElse fun _ =>
    (searchDown (cutTier2 s) (min target s.length)).orElse fun _ =>
      searchDown (cutTier3 s) (min target s.length)

/-- Modelled from the spec: `splitTextSmart` lives in
`public/kokoro/semantic-split.js`, which is not part of the provided
sources. Following spec §4.1: split text into chunks of at most `target`
characters, cutting at sentence punctuation, then clause punctuation, then
whitespace, in that priority; never cut inside a word; degenerate input with
no usable boundary is returned as a single chunk equal to the whole
remaining input. -/
def splitTextSmart (s : List Char) (target : Nat) : List (List Char) :=
  if h0 : s = [] then []
  else if s.length ≤ target then [s]
  else
    match findSplit s target with
    | none => [s]
    | some p =>
        s.take (max 1 p) :: splitTextSmart (s.drop (max 1 p)) target
termination_by s.length
decreasing_by
  have h1 : 1 ≤ max 1 p := le_max_left _ _
  have h2 : 0 < s.length := List.length_pos.mpr h0
  simp only [List.length_drop]
  omega

/-- Boundary between two adjacent chunks lies on a word boundary: the left
chunk ends in whitespace or the right chunk starts with whitespace. -/
def boundaryOkB (a b : List Char) : Bool :=
  (match a.getLast? with | some c => isWhite c | none => false) ||
    (match b.head? with | some c => isWhite c | none => false)

/-! ## Worker invariants and trace predicates -/

/-- Reachability invariant of the worker: the buffer counter stays within
`[0, MAX_QUEUE_SIZE]`, suspended loop positions still have chunks pending,
and whenever a generation is in flight and no stop has arrived, there is
room in the buffer for its result. -/
def WInv (c : WCfg) : Prop :=
  0 ≤ c.depth ∧ c.depth ≤ MAX_QUEUE_SIZE ∧
    ((c.pc = WPc.sleeping ∨ c.pc = WPc.generating) → c.pending ≠ []) ∧
    (c.pc = WPc.generating → c.stopped = false → c.depth < MAX_QUEUE_SIZE)

/-- A message list containing no terminal (`complete` or `error`) message. -/
def noTerm (tr : List WEv) : Prop :=
  ∀ e ∈ tr, isCompleteEv e = false ∧ isErrorEv e = false

/-- Shape of the messages posted so far: while the task is not finished, no
terminal message has been posted; once finished, the trace is a
non-terminal prefix followed by exactly one terminal message. -/
def TraceOk (c : WCfg) (tr : List WEv) : Prop :=
  match c.pc with
  | WPc.finished =>
      ∃ t1 e, tr = t1 ++ [e] ∧ noTerm t1 ∧ (e = WEv.complete ∨ ∃ s, e = WEv.error s)
  | _ => noTerm tr

/-- Whether the last message posted is a terminal one (`complete` or
`error`). -/
def endsWithTerminal (tr : List WEv) : Bool :=
  match tr.getLast? with
  | some e => isCompleteEv e || isErrorEv e
  | none => false

/-! ## Worker lemmas -/

theorem noTerm_nil : noTerm [] := by
  intro e he
  simp at he

theorem noTerm_append {t1 t2 : List WEv} (h1 : noTerm t1) (h2 : noTerm t2) :
    noTerm (t1 ++ t2) := by
  intro e he
  rcases List.mem_append.mp he with h | h
  · exact h1 e h
  · exact h2 e h

theorem noTerm_audio (c : String) : noTerm [WEv.streamAudio c] := by
  intro e he
  simp at he
  subst he
  exact ⟨rfl, rfl⟩

theorem enterLoop_stopped (p : List String) (d : ℤ) :
    ((enterLoop p d).1).stopped = false := by
  cases p with
  | nil => rfl
  | cons a t =>
    simp only [enterLoop]
    split <;> rfl

theorem enterLoop_depth (p : List String) (d : ℤ) : ((enterLoop p d).1).depth = d := by
  cases p with
  | nil => rfl
  | cons a t =>
    simp only [enterLoop]
    split <;> rfl

theorem enterLoop_no_audio (p : List String) (d : ℤ) (c : String) :
    WEv.streamAudio c ∉ (enterLoop p d).2 := by
  cases p with
  | nil =>
    simp [enterLoop]
  | cons a t =>
    simp only [enterLoop]
    split <;> simp

theorem enterLoop_noTerm_or_complete (p : List String) (d : ℤ) :
    (enterLoop p d).2 = [] ∨ (enterLoop p d).2 = [WEv.complete] := by
  cases p with
  | nil => exact Or.inr rfl
  | cons a t =>
    simp only [enterLoop]
    split <;> exact Or.inl rfl

theorem enterLoop_pc_finished (p : List String) (d : ℤ) :
    ((enterLoop p d).1).pc = WPc.finished ↔ p = [] := by
  cases p with
  | nil => simp [enterLoop]
  | cons a t =>
    simp only [enterLoop]
    constructor
    · intro h
      split at h <;> simp_all
    · intro h
      simp at h

theorem enterLoop_events_iff (p : List String) (d : ℤ) :
    (enterLoop p d).2 = if p = [] then [WEv.complete] else [] := by
  cases p with
  | nil => rfl
  | cons a t =>
    simp only [enterLoop]
    split <;> simp

theorem WInv_enterLoop (p : List String) (d : ℤ) (h0 : 0 ≤ d) (h6 : d ≤ MAX_QUEUE_SIZE) :
    WInv (enterLoop p d).1 := by
  cases p with
  | nil =>
    exact ⟨h0, h6, by intro h; rcases h with h | h <;> simp [enterLoop] at h, by
      intro h
      simp [enterLoop] at h⟩
  | cons a t =>
    simp only [enterLoop]
    by_cases hd : MAX_QUEUE_SIZE ≤ d
    · rw [if_pos hd]
      exact ⟨h0, h6, fun _ => by simp, by intro h; simp at h⟩
    · rw [if_neg hd]
      push_neg at hd
      exact ⟨h0, h6, fun _ => by simp, fun _ _ => hd⟩

theorem WStep_preserve {a : WCfg} {evs : List WEv} {b : WCfg}
    (hstep : WStep a evs b) (hinv : WInv a) : WInv b := by
  obtain ⟨hd0, hd6, hpend, hgen⟩ := hinv
  cases hstep with
  | envStop p d s pc =>
    refine ⟨le_refl 0, ?_, hpend, by intro _ h; simp at h⟩
    show (0 : ℤ) ≤ MAX_QUEUE_SIZE
    decide
  | envBuf p d s pc =>
    refine ⟨le_max_left _ _, ?_, hpend, ?_⟩
    · simp only [WCfg.depth] at hd6 ⊢
      unfold MAX_QUEUE_SIZE at hd6 ⊢
      omega
    · intro hpc hs
      have := hgen hpc hs
      simp only [WCfg.depth] at this ⊢
      unfold MAX_QUEUE_SIZE at this ⊢
      omega
  | wakeStop p d =>
    exact ⟨hd0, hd6, by intro h; rcases h with h | h <;> simp at h, by intro h; simp at h⟩
  | wakeWait p d h =>
    exact ⟨hd0, hd6, hpend, by intro h; simp at h⟩
  | wakeGo p d h =>
    exact ⟨hd0, hd6, fun _ => hpend (Or.inl rfl), fun _ _ => h⟩
  | genStop p d =>
    exact ⟨hd0, hd6, by intro h; rcases h with h | h <;> simp at h, by intro h; simp at h⟩
  | genOk c rest d =>
    have hroom : d < (6 : ℤ) := hgen rfl rfl
    have hd0' : (0 : ℤ) ≤ d := hd0
    refine WInv_enterLoop rest (d + 1) (by omega) ?_
    show d + 1 ≤ MAX_QUEUE_SIZE
    unfold MAX_QUEUE_SIZE
    omega
  | genErr p d s e =>
    exact ⟨hd0, hd6, by intro h; rcases h with h | h <;> simp at h, by intro h; simp at h⟩

theorem WStep_trace {a : WCfg} {evs : List WEv} {b : WCfg}
    (hstep : WStep a evs b) :
    ∀ acc, TraceOk a acc → TraceOk b (acc ++ evs) := by
  intro acc hacc
  cases hstep with
  | envStop p d s pc =>
    simpa [TraceOk] using hacc
  | envBuf p d s pc =>
    simpa [TraceOk] using hacc
  | wakeStop p d =>
    simp only [TraceOk] at hacc ⊢
    exact ⟨acc, WEv.complete, rfl, hacc, Or.inl rfl⟩
  | wakeWait p d h =>
    simpa [TraceOk] using hacc
  | wakeGo p d h =>
    simpa [TraceOk] using hacc
  | genStop p d =>
    simp only [TraceOk] at hacc ⊢
    exact ⟨acc, WEv.complete, rfl, hacc, Or.inl rfl⟩
  | genOk c rest d =>
    simp only [TraceOk] at hacc
    have hacc1 : noTerm (acc ++ [WEv.streamAudio c]) :=
      noTerm_append hacc (noTerm_audio c)
    cases rest with
    | nil =>
      simp only [TraceOk, enterLoop]
      exact ⟨acc ++ [WEv.streamAudio c], WEv.complete, by simp, hacc1, Or.inl rfl⟩
    | cons x xs =>
      simp only [enterLoop]
      split <;> simpa [TraceOk] using hacc1
  | genErr p d s e =>
    simp only [TraceOk] at hacc ⊢
    exact ⟨acc, WEv.error e, rfl, hacc, Or.inr ⟨e, rfl⟩⟩

theorem WRun_inv_trace {a : WCfg} {tr : List WEv} {b : WCfg}
    (hrun : WRun a tr b) (hinv : WInv a) :
    WInv b ∧ ∀ acc, TraceOk a acc → TraceOk b (acc ++ tr) := by
  induction hrun with
  | refl c =>
    exact ⟨hinv, by intro acc h; simpa using h⟩
  | step hstep hrest ih =>
    have hinv1 := WStep_preserve hstep hinv
    obtain ⟨hinvb, htr⟩ := ih hinv1
    refine ⟨hinvb, ?_⟩
    intro acc hacc
    have h1 := WStep_trace hstep acc hacc
    have h2 := htr _ h1
    simpa [List.append_assoc] using h2

theorem startRun_inv (chunks : List String) (d0 : ℤ) (h0 : 0 ≤ d0)
    (h6 : d0 ≤ MAX_QUEUE_SIZE) : WInv (startRun chunks d0).1 :=
  WInv_enterLoop chunks d0 h0 h6

theorem startRun_traceOk (chunks : List String) (d0 : ℤ) :
    TraceOk (startRun chunks d0).1 (startRun chunks d0).2 := by
  cases chunks with
  | nil =>
    simp only [startRun, enterLoop, TraceOk]
    refine ⟨[WEv.chunkCount 0], WEv.complete, rfl, ?_, Or.inl rfl⟩
    intro e he
    simp at he
    subst he
    exact ⟨rfl, rfl⟩
  | cons a t =>
    simp only [startRun, enterLoop]
    split <;>
    · simp only [TraceOk]
      intro e he
      simp at he
      subst he
      exact ⟨rfl, rfl⟩

theorem WRun_from_start (chunks : List String) (d0 : ℤ) (h0 : 0 ≤ d0)
    (h6 : d0 ≤ MAX_QUEUE_SIZE) {tr : List WEv} {c' : WCfg}
    (hrun : WRun (startRun chunks d0).1 tr c') :
    WInv c' ∧ TraceOk c' ((startRun chunks d0).2 ++ tr) := by
  obtain ⟨hinv, htr⟩ := WRun_inv_trace hrun (startRun_inv chunks d0 h0 h6)
  exact ⟨hinv, htr _ (startRun_traceOk chunks d0)⟩

theorem noTerm_countP_complete {tr : List WEv} (h : noTerm tr) :
    tr.countP isCompleteEv = 0 := by
  rw [List.countP_eq_zero]
  intro e he
  exact (h e he).1 ▸ by simp [(h e he).1]

theorem term_last_no_tail {t1 : List WEv} {e : WEv} {s1 s2 : List WEv}
    (hsplit : t1 ++ [e] = s1 ++ WEv.complete :: s2) (hno : noTerm t1) : s2 = [] := by
  induction s1 generalizing t1 with
  | nil =>
    cases t1 with
    | nil =>
      simp at hsplit
      exact hsplit.2
    | cons x t1' =>
      simp at hsplit
      have hx := hno x (by simp)
      rw [hsplit.1] at hx
      simp [isCompleteEv] at hx
  | cons y s1' ih =>
    cases t1 with
    | nil =>
      simp at hsplit
    | cons x t1' =>
      simp at hsplit
      exact ih hsplit.2 (fun z hz => hno z (by simp [hz]))

theorem WStep_stopped_mono {a : WCfg} {evs : List WEv} {b : WCfg}
    (hstep : WStep a evs b) (hs : a.stopped = true) : b.stopped = true := by
  cases hstep <;> simp_all [enterLoop_stopped]

theorem WStep_stop_no_audio {a : WCfg} {evs : List WEv} {b : WCfg}
    (hstep : WStep a evs b) (hs : a.stopped = true) (c : String) :
    WEv.streamAudio c ∉ evs := by
  cases hstep <;> simp_all

theorem WRun_stop_no_audio {a : WCfg} {tr : List WEv} {b : WCfg}
    (hrun : WRun a tr b) (hs : a.stopped = true) (c : String) :
    WEv.streamAudio c ∉ tr := by
  induction hrun with
  | refl c0 =>
    simp
  | step hstep hrest ih =>
    intro hmem
    rcases List.mem_append.mp hmem with h | h
    · exact WStep_stop_no_audio hstep hs c h
    · exact ih (WStep_stopped_mono hstep hs) h

theorem WStep_audio_needs_room {a : WCfg} {evs : List WEv} {b : WCfg}
    (hstep : WStep a evs b) (hinv : WInv a) {c : String}
    (hmem : WEv.streamAudio c ∈ evs) : a.depth < MAX_QUEUE_SIZE ∧ a.stopped = false := by
  obtain ⟨hd0, hd6, hpend, hgen⟩ := hinv
  cases hstep with
  | envStop p d s pc => simp at hmem
  | envBuf p d s pc => simp at hmem
  | wakeStop p d => simp at hmem
  | wakeWait p d h => simp at hmem
  | wakeGo p d h => simp at hmem
  | genStop p d => simp at hmem
  | genOk c0 rest d =>
    exact ⟨hgen rfl rfl, rfl⟩
  | genErr p d s e => simp at hmem

theorem TraceOk_finished {c : WCfg} {tr : List WEv} (h : TraceOk c tr)
    (hfin : c.pc = WPc.finished) :
    ∃ t1 e, tr = t1 ++ [e] ∧ noTerm t1 ∧ (e = WEv.complete ∨ ∃ s, e = WEv.error s) := by
  unfold TraceOk at h
  rw [hfin] at h
  exact h

theorem TraceOk_noTerm {c : WCfg} {tr : List WEv} (h : TraceOk c tr)
    (hfin : c.pc ≠ WPc.finished) : noTerm tr := by
  unfold TraceOk at h
  cases hpc : c.pc <;> rw [hpc] at h
  · exact h
  · exact h
  · exact absurd hpc hfin

theorem countP_complete_single (e : WEv) :
    List.countP isCompleteEv [e] ≤ 1 := by
  cases e <;> simp [List.countP_cons, isCompleteEv]

/-- C1: for every generation request, given a stop issued mid-generation,
the worker posts "complete" exactly once for that request — one complete in
every error-free terminated run, never a second complete after the first,
and no "stream_audio_data" message after the request's "complete". -/
theorem worker_complete_exactly_once (chunks : List String) (d0 : ℤ)
    (tr : List WEv) (c' : WCfg) (h0 : 0 ≤ d0) (h6 : d0 ≤ MAX_QUEUE_SIZE)
    (hrun : WRun (startRun chunks d0).1 tr c') :
    (((startRun chunks d0).2 ++ tr).countP isCompleteEv ≤ 1) ∧
    (c'.pc = WPc.finished → (∀ s, WEv.error s ∉ (startRun chunks d0).2 ++ tr) →
      ((startRun chunks d0).2 ++ tr).countP isCompleteEv = 1) ∧
    (∀ s1 s2, (startRun chunks d0).2 ++ tr = s1 ++ WEv.complete :: s2 →
      ∀ c, WEv.streamAudio c ∉ s2) := by
  obtain ⟨hinv, htrace⟩ := WRun_from_start chunks d0 h0 h6 hrun
  by_cases hfin : c'.pc = WPc.finished
  · obtain ⟨t1, e, hsplit, hno, hterm⟩ := TraceOk_finished htrace hfin
    refine ⟨?_, ?_, ?_⟩
    · rw [hsplit, List.countP_append, noTerm_countP_complete hno]
      simpa using countP_complete_single e
    · intro _ hnoerr
      rcases hterm with he | ⟨s, he⟩
      · subst he
        rw [hsplit, List.countP_append, noTerm_countP_complete hno]
        simp [isCompleteEv]
      · subst he
        exact absurd (hsplit ▸ List.mem_append_right t1 (by simp)) (by simpa using hnoerr s)
    · intro s1 s2 hdecomp c
      have hs2 : s2 = [] := term_last_no_tail (hsplit ▸ hdecomp) hno
      simp [hs2]
  · have hno := TraceOk_noTerm htrace hfin
    refine ⟨by rw [noTerm_countP_complete hno]; omega,
      fun h => absurd h hfin, ?_⟩
    intro s1 s2 hdecomp c
    have : WEv.complete ∈ (startRun chunks d0).2 ++ tr := by
      rw [hdecomp]
      exact List.mem_append_right s1 (by simp)
    have := (hno _ this).1
    simp [isCompleteEv] at this

/-- C1 witness: the theorem applied to the empty request run. -/
theorem worker_complete_exactly_once_witness :
    ((startRun ([] : List String) (0 : ℤ)).2 ++ ([] : List WEv)).countP isCompleteEv = 1 :=
  (worker_complete_exactly_once [] 0 [] (startRun [] 0).1 (by decide) (by decide)
    (WRun.refl _)).2.1 rfl (by intro s; simp [startRun, enterLoop])

/-- C2: along every run of the worker started with an in-range buffer
counter, the counter stays in `[0, MAX_QUEUE_SIZE]`; a step that posts
`stream_audio_data` can only be taken from a configuration with spare
capacity and no pending stop; the `buffer_processed` transition floors the
decrement at zero; and with a full buffer the sleeping producer merely
re-enters its wait loop, posting nothing. -/
theorem worker_depth_bounds (chunks : List String) (d0 : ℤ)
    (tr : List WEv) (c' : WCfg) (h0 : 0 ≤ d0) (h6 : d0 ≤ MAX_QUEUE_SIZE)
    (hrun : WRun (startRun chunks d0).1 tr c') :
    (0 ≤ c'.depth ∧ c'.depth ≤ MAX_QUEUE_SIZE) ∧
    (∀ evs b c, WStep c' evs b → WEv.streamAudio c ∈ evs →
      c'.depth < MAX_QUEUE_SIZE ∧ c'.stopped = false) ∧
    (∀ (p : List String) (d : ℤ) (s : Bool) (pc : WPc),
      WStep ⟨p, d, s, pc⟩ [] ⟨p, max 0 (d - 1), s, pc⟩ ∧ 0 ≤ max 0 (d - 1)) ∧
    (∀ (p : List String) (d : ℤ), MAX_QUEUE_SIZE ≤ d →
      WStep ⟨p, d, false, WPc.sleeping⟩ [] ⟨p, d, false, WPc.sleeping⟩) := by
  obtain ⟨hinv, _⟩ := WRun_from_start chunks d0 h0 h6 hrun
  refine ⟨⟨hinv.1, hinv.2.1⟩, ?_, ?_, ?_⟩
  · intro evs b c hstep hmem
    exact WStep_audio_needs_room hstep hinv hmem
  · intro p d s pc
    exact ⟨WStep.envBuf p d s pc, le_max_left _ _⟩
  · intro p d h
    exact WStep.wakeWait p d h

/-- C2 witness: the theorem applied to the empty request run. -/
theorem worker_depth_bounds_witness :
    (0 : ℤ) ≤ (startRun ([] : List String) 0).1.depth ∧
      (startRun ([] : List String) 0).1.depth ≤ MAX_QUEUE_SIZE :=
  (worker_depth_bounds [] 0 [] (startRun [] 0).1 (by decide) (by decide) (WRun.refl _)).1

/-- C3: the stop flag is monotone under every transition (once set, every
later checkpoint observes it); once the flag is set no further
`stream_audio_data` is posted in the rest of the run; and from a
configuration suspended in `tts.generate` the only transitions either leave
the generation in flight (message handling) or consume its settled outcome
(post-generation stop checkpoint, publish, or engine error) — cancellation
never aborts the call mid-flight. -/
theorem worker_cancellation_cooperative :
    (∀ (a : WCfg) (evs : List WEv) (b : WCfg), WStep a evs b →
      a.stopped = true → b.stopped = true) ∧
    (∀ (a : WCfg) (tr : List WEv) (b : WCfg), WRun a tr b →
      a.stopped = true → ∀ c, WEv.streamAudio c ∉ tr) ∧
    (∀ (a : WCfg) (evs : List WEv) (b : WCfg), WStep a evs b →
      a.pc = WPc.generating →
      (evs = [] ∧ b.pc = WPc.generating) ∨ evs = [WEv.complete] ∨
        (∃ c t, evs = WEv.streamAudio c :: t) ∨ (∃ e, evs = [WEv.error e])) := by
  refine ⟨fun a evs b hstep hs => WStep_stopped_mono hstep hs,
    fun a tr b hrun hs c => WRun_stop_no_audio hrun hs c, ?_⟩
  intro a evs b hstep hpc
  cases hstep with
  | envStop p d s pc =>
    exact Or.inl ⟨rfl, hpc⟩
  | envBuf p d s pc =>
    exact Or.inl ⟨rfl, hpc⟩
  | wakeStop p d => simp at hpc
  | wakeWait p d h => simp at hpc
  | wakeGo p d h => simp at hpc
  | genStop p d =>
    exact Or.inr (Or.inl rfl)
  | genOk c rest d =>
    exact Or.inr (Or.inr (Or.inl ⟨c, _, rfl⟩))
  | genErr p d s e =>
    exact Or.inr (Or.inr (Or.inr ⟨e, rfl⟩))

/-- C3 witness: a stopped run through the post-generation checkpoint posts
`complete` and no audio. -/
theorem worker_cancellation_cooperative_witness :
    WEv.streamAudio "a" ∉ ([WEv.complete] ++ ([] : List WEv)) :=
  worker_cancellation_cooperative.2.1 ⟨["x"], 0, true, WPc.generating⟩
    ([WEv.complete] ++ []) ⟨["x"], 0, true, WPc.finished⟩
    (WRun.step (WStep.genStop ["x"] 0) (WRun.refl _)) rfl "a"

theorem unitEnded_processed (st : CState) :
    (unitEnded st).processedChunks = st.processedChunks + 1 := by
  unfold unitEnded
  dsimp only
  split <;> rfl

theorem playQueueRun_drains (st : CState) :
    (playQueueRun st).queue = [] ∧
      (playQueueRun st).processedChunks = st.processedChunks + st.queue.length := by
  generalize hn : st.queue.length = n
  induction n generalizing st with
  | zero =>
    have hq : st.queue = [] := List.length_eq_zero.mp hn
    unfold playQueueRun
    split
    · simp [hq]
    · simp_all
  | succ n ih =>
    unfold playQueueRun
    split
    · simp_all
    · rename_i hd rest heq
      have hq : (unitEnded { st with queue := rest }).queue = rest := unitEnded_queue _
      have hlen : (unitEnded { st with queue := rest }).queue.length = n := by
        rw [hq]
        rw [heq] at hn
        simpa using Nat.succ_injective hn
      obtain ⟨h1, h2⟩ := ih _ hlen
      refine ⟨h1, ?_⟩
      rw [h2, unitEnded_processed]
      dsimp only
      omega

/-- C8: a generation failure is reported as a discrete error message — every
terminated run ends with a terminal `complete` or `error` message, never
silence; the controller's error handler forces `isStreaming` false and
surfaces the error string as the status, leaving the playback queue
untouched; and the playback loop drains every queued unit irrespective of
the streaming flag, so units published before the failure stay playable. -/
theorem error_reported_queue_preserved :
    (∀ (st : CState) (e : String),
      (handleMessage st (WorkerMsg.error e)).1.queue = st.queue ∧
      (handleMessage st (WorkerMsg.error e)).1.isStreaming = false ∧
      (handleMessage st (WorkerMsg.error e)).1.statusMessage = "Error: " ++ e ∧
      (handleMessage st (WorkerMsg.error e)).2 = false) ∧
    (∀ st : CState, (playQueueRun st).queue = [] ∧
      (playQueueRun st).processedChunks = st.processedChunks + st.queue.length) ∧
    (∀ (chunks : List String) (d0 : ℤ) (tr : List WEv) (c' : WCfg),
      0 ≤ d0 → d0 ≤ MAX_QUEUE_SIZE →
      WRun (startRun chunks d0).1 tr c' → c'.pc = WPc.finished →
      endsWithTerminal ((startRun chunks d0).2 ++ tr) = true) := by
  refine ⟨fun st e => ⟨rfl, rfl, rfl, rfl⟩, playQueueRun_drains, ?_⟩
  intro chunks d0 tr c' h0 h6 hrun hfin
  obtain ⟨_, htrace⟩ := WRun_from_start chunks d0 h0 h6 hrun
  obtain ⟨t1, e, hsplit, _, hterm⟩ := TraceOk_finished htrace hfin
  rw [hsplit]
  unfold endsWithTerminal
  rw [List.getLast?_concat]
  rcases hterm with he | ⟨s, he⟩ <;> subst he <;> rfl

/-- C8 witness: the theorem applied to an error-handler call on a concrete
state and to the empty request run. -/
theorem error_reported_queue_preserved_witness :
    (handleMessage ⟨true, "s", 7, [⟨[1], "t"⟩], 3, 1⟩ (WorkerMsg.error "boom")).1.queue
        = [⟨[1], "t"⟩] ∧
      endsWithTerminal ((startRun ([] : List String) 0).2 ++ ([] : List WEv)) = true :=
  ⟨(error_reported_queue_preserved.1 ⟨true, "s", 7, [⟨[1], "t"⟩], 3, 1⟩ "boom").1,
    error_reported_queue_preserved.2.2 [] 0 [] (startRun [] 0).1 (by decide) (by decide)
      (WRun.refl _) rfl⟩

/-- The natural-number rounding in `jsRound100` agrees with mathematical
half-up rounding of `100 * p / t`. -/
theorem jsRound100_eq_round (p t : Nat) (ht : 0 < t) :
    (jsRound100 p t : ℤ) = round (((100 * p : ℕ) : ℚ) / (t : ℚ)) := by
  have ht' : (0 : ℚ) < (t : ℚ) := by exact_mod_cast ht
  rw [round_eq]
  have harg : ((100 * p : ℕ) : ℚ) / (t : ℚ) + 1 / 2
      = ((200 * p + t : ℕ) : ℚ) / ((2 * t : ℕ) : ℚ) := by
    push_cast
    field_simp
    ring
  rw [harg]
  have h2 : (0 : ℚ) ≤ ((200 * p + t : ℕ) : ℚ) / ((2 * t : ℕ) : ℚ) := by positivity
  have h3 : ⌊((200 * p + t : ℕ) : ℚ) / ((2 * t : ℕ) : ℚ)⌋₊ = (200 * p + t) / (2 * t) :=
    Nat.floor_div_eq_div _ _
  have h5 : (0 : ℤ) ≤ ⌊((200 * p + t : ℕ) : ℚ) / ((2 * t : ℕ) : ℚ)⌋ :=
    Int.floor_nonneg.mpr h2
  have h6 := Int.floor_toNat (((200 * p + t : ℕ) : ℚ) / ((2 * t : ℕ) : ℚ))
  calc (jsRound100 p t : ℤ) = (((200 * p + t) / (2 * t) : ℕ) : ℤ) := rfl
    _ = ((⌊((200 * p + t : ℕ) : ℚ) / ((2 * t : ℕ) : ℚ)⌋₊ : ℕ) : ℤ) := by rw [h3]
    _ = ((⌊((200 * p + t : ℕ) : ℚ) / ((2 * t : ℕ) : ℚ)⌋.toNat : ℕ) : ℤ) := by rw [h6]
    _ = ⌊((200 * p + t : ℕ) : ℚ) / ((2 * t : ℕ) : ℚ)⌋ := Int.toNat_of_nonneg h5

/-- C4: when an audio unit finishes natural playback with `totalChunks > 0`,
the published streaming progress is `min(round(100 * processed / total), 99)`
— in particular 75 for 3 of 4 chunks — and it never reaches 100; among the
worker-message handlers, only the explicit `complete` message sets the
progress to 100. -/
theorem streaming_progress_capped :
    (∀ st : CState, 0 < st.totalChunks →
      ((unitEnded st).streamingProgress : ℤ)
          = min (round (((100 * (st.processedChunks + 1) : ℕ) : ℚ) / (st.totalChunks : ℚ))) 99 ∧
        (unitEnded st).streamingProgress ≤ 99) ∧
    (unitEnded ⟨true, "", 0, [], 4, 2⟩).streamingProgress = 75 ∧
    (∀ (st : CState) (m : WorkerMsg), (handleMessage st m).1.streamingProgress = 100 →
      m = WorkerMsg.complete ∨ st.streamingProgress = 100) := by
  refine ⟨?_, by decide, ?_⟩
  · intro st ht
    have hval : (unitEnded st).streamingProgress
        = min (jsRound100 (st.processedChunks + 1) st.totalChunks) 99 := by
      unfold unitEnded
      dsimp only
      rw [if_pos ht]
    constructor
    · rw [hval]
      push_cast [Nat.cast_min]
      rw [jsRound100_eq_round _ _ ht]
      push_cast
      rfl
    · rw [hval]
      exact min_le_right _ _
  · intro st m h
    cases m with
    | chunkCount n =>
      simp [handleMessage] at h
    | streamAudioData u =>
      right
      unfold handleMessage enqueueAudio at h
      dsimp only at h
      split at h <;> simpa using h
    | complete => exact Or.inl rfl
    | error e => exact Or.inr h

/-- C4 witness: the theorem applied at 3 processed chunks out of 4. -/
theorem streaming_progress_capped_witness :
    ((unitEnded ⟨true, "", 0, [], 4, 2⟩).streamingProgress : ℤ)
      = min (round (((100 * 3 : ℕ) : ℚ) / ((4 : ℕ) : ℚ))) 99 :=
  (streaming_progress_capped.1 ⟨true, "", 0, [], 4, 2⟩ (by decide)).1

theorem wordsGo_nil_of_white {cs : List Char}
    (h : cs.dropWhile (fun c => isWhite c) = []) (sum : Nat) : wordsGo cs sum = [] := by
  unfold wordsGo
  split
  · rfl
  · rename_i a t heq
    rw [h] at heq
    exact absurd heq (by simp)

theorem getWordBoundaries_head (t : List Char) : (getWordBoundaries t).head? = some 0 := by
  unfold getWordBoundaries
  split <;> rfl

theorem getWordBoundaries_two (t : List Char) : 2 ≤ (getWordBoundaries t).length := by
  unfold getWordBoundaries
  split
  · simp
  · rename_i l hne
    simp only [List.length_cons]
    cases hw : wordsGo t 0 with
    | nil => exact absurd hw hne
    | cons a as => simp [hw]

theorem getWordBoundaries_white {t : List Char} (h : ∀ c ∈ t, isWhite c = true) :
    getWordBoundaries t = [0, t.length] := by
  have hd : t.dropWhile (fun c => isWhite c) = [] :=
    List.dropWhile_eq_nil_iff.mpr (by intro x hx; simpa using h x hx)
  unfold getWordBoundaries
  rw [wordsGo_nil_of_white hd]

/-- C9: the word-boundary list starts at 0 and has at least two entries; on
text with no recognizable word (purely whitespace or empty) it is exactly
`[0, length]`, a single boundary at the full text length; the word count
used for per-word timing is at least 1; and the clamped word index is
always a valid index into the boundary list. -/
theorem word_boundaries_safe :
    (∀ t : List Char, (getWordBoundaries t).head? = some 0) ∧
    (∀ t : List Char, 2 ≤ (getWordBoundaries t).length) ∧
    (∀ t : List Char, (∀ c ∈ t, isWhite c = true) → getWordBoundaries t = [0, t.length]) ∧
    (∀ t : List Char, 1 ≤ totalWords t) ∧
    (∀ (t : List Char) (pct : ℚ), wordsRead t pct < (getWordBoundaries t).length) := by
  refine ⟨getWordBoundaries_head, getWordBoundaries_two,
    fun t h => getWordBoundaries_white h, fun t => le_max_left _ _, ?_⟩
  intro t pct
  have hlen : 2 ≤ (getWordBoundaries t).length := getWordBoundaries_two t
  have htw : totalWords t = (getWordBoundaries t).length - 1 := by
    unfold totalWords
    omega
  have hle : wordsRead t pct ≤ totalWords t := min_le_left _ _
  omega

/-- C9 witness: the theorem applied to whitespace-only text. -/
theorem word_boundaries_safe_witness :
    getWordBoundaries ("  ".toList) = [0, ("  ".toList).length] :=
  word_boundaries_safe.2.2.1 "  ".toList (by decide)

/-- C10: an incoming `stream_audio_data` message with no active session is
dropped — `enqueueAudio` returns with the state unchanged (in particular
the playback queue) and without invoking `playQueue`. -/
theorem audio_dropped_without_session :
    ∀ (st : CState) (u : AudioUnit), st.isStreaming = false →
      enqueueAudio st u = (st, false) ∧
      handleMessage st (WorkerMsg.streamAudioData u) = (st, false) := by
  intro st u h
  constructor <;> simp [enqueueAudio, handleMessage, h]

/-- C10 witness: the theorem applied to an idle state with a queued unit. -/
theorem audio_dropped_without_session_witness :
    enqueueAudio ⟨false, "s", 40, [⟨[2], "u"⟩], 3, 1⟩ ⟨[1], "x"⟩
      = (⟨false, "s", 40, [⟨[2], "u"⟩], 3, 1⟩, false) :=
  (audio_dropped_without_session ⟨false, "s", 40, [⟨[2], "u"⟩], 3, 1⟩ ⟨[1], "x"⟩ rfl).1

theorem indexOfFrom_some {cs : List Char} {c : Char} {s i : Nat}
    (h : indexOfFrom cs c s = some i) : s ≤ i ∧ cs[i]? = some c := by
  unfold indexOfFrom at h
  have h1 := List.find?_some h
  simpa using h1

theorem sliceStart_eq (t : List Char) (q : ℚ) (h0 : 0 ≤ q) (h100 : q ≤ 100) :
    sliceStart t q = match indexOfFrom t ' ' (offsetChars t q + 1) with
      | some i => i + 1
      | none => offsetChars t q := by
  unfold sliceStart offsetChars
  rw [max_eq_right h0, min_eq_right h100]

theorem sliceStart_ge (t : List Char) (q : ℚ) (h0 : 0 ≤ q) (h100 : q ≤ 100) :
    offsetChars t q ≤ sliceStart t q := by
  rw [sliceStart_eq t q h0 h100]
  cases h : indexOfFrom t ' ' (offsetChars t q + 1) with
  | none => exact le_refl _
  | some i =>
    have h2 := (indexOfFrom_some h).1
    show offsetChars t q ≤ i + 1
    omega

/-- C7 counterexample: at 90% into "hello world", the computed start index
is 9 with no space at any later index, so the emitted text "ld" begins
strictly inside the word "world". -/
theorem slice_can_start_midword :
    sliceStart ("hello world".toList) 90 = 9 ∧
    startsMidWord ("hello world".toList) (sliceStart ("hello world".toList) 90) = true ∧
    sliceTextFromPercent ("hello world".toList) 90 = "ld".toList ∧
    (0 : ℚ) ≤ 90 ∧ (90 : ℚ) ≤ 100 ∧ ("hello world".toList) ≠ [] := by
  have hoff : offsetChars ("hello world".toList) 90 = 9 := by
    unfold offsetChars
    have hlen : ("hello world".toList).length = 11 := rfl
    rw [hlen]
    rw [show ⌊(90 : ℚ) / 100 * ((11 : ℕ) : ℚ)⌋ = 9 from by norm_num]
    rfl
  have hidx : indexOfFrom ("hello world".toList) ' ' (9 + 1) = none := by decide
  have h0 : (0 : ℚ) ≤ 90 := by decide
  have h100 : (90 : ℚ) ≤ 100 := by decide
  have hss : sliceStart ("hello world".toList) 90 = 9 := by
    rw [sliceStart_eq _ _ h0 h100, hoff, hidx]
  refine ⟨hss, ?_, ?_, h0, h100, by decide⟩
  · rw [hss]
    decide
  · have hslice : sliceTextFromPercent ("hello world".toList) 90
        = ("hello world".toList).drop 9 := by
      simp only [sliceTextFromPercent]
      rw [if_neg (by decide), hss]
    rw [hslice]
    decide

/-- C7 amended: for every offset percentage in [0, 100] and non-empty text,
the emitted text is the suffix starting at or after the raw character
position for the offset; when a space exists at an index ≥ startIndex + 1
the slice starts just past the first such space (a word boundary), but when
no such space exists the slice starts at the raw position, which may fall
mid-word. -/
theorem slice_from_percent_spec :
    ∀ (t : List Char) (q : ℚ), 0 ≤ q → q ≤ 100 → t ≠ [] →
      sliceTextFromPercent t q = t.drop (sliceStart t q) ∧
      offsetChars t q ≤ sliceStart t q ∧
      (∀ i, indexOfFrom t ' ' (offsetChars t q + 1) = some i →
        sliceStart t q = i + 1 ∧ t[i]? = some ' ') ∧
      (indexOfFrom t ' ' (offsetChars t q + 1) = none →
        sliceStart t q = offsetChars t q) := by
  intro t q h0 h100 ht
  refine ⟨by simp [sliceTextFromPercent, ht], sliceStart_ge t q h0 h100, ?_, ?_⟩
  · intro i hi
    rw [sliceStart_eq t q h0 h100, hi]
    exact ⟨rfl, (indexOfFrom_some hi).2⟩
  · intro hn
    rw [sliceStart_eq t q h0 h100, hn]

/-- C7 witness: the amended theorem applied at 50% of "hello world". -/
theorem slice_from_percent_spec_witness :
    sliceTextFromPercent ("hello world".toList) 50
      = ("hello world".toList).drop (sliceStart ("hello world".toList) 50) :=
  (slice_from_percent_spec "hello world".toList 50 (by norm_num) (by norm_num)
    (by decide)).1

theorem orZero_eq (q : ℚ) : orZero q = q := by
  unfold orZero
  split
  · rename_i h
    exact h.symm
  · rfl

theorem effective_nonneg (base prog : ℚ) (hb0 : 0 ≤ base) (hb1 : base ≤ 100)
    (hp0 : 0 ≤ prog) : 0 ≤ base + prog * (1 - base / 100) := by
  have h1 : (0 : ℚ) ≤ 1 - base / 100 := by linarith
  nlinarith [mul_nonneg hp0 h1]

theorem effective_le (base prog : ℚ) (hb0 : 0 ≤ base) (hb1 : base ≤ 100)
    (hp0 : 0 ≤ prog) (hp1 : prog ≤ 100) : base + prog * (1 - base / 100) ≤ 100 := by
  have h1 : (0 : ℚ) ≤ 1 - base / 100 := by linarith
  nlinarith [mul_le_mul_of_nonneg_right hp1 h1]

theorem pause_fields (st : UiState) (hs : st.isStreaming = true) :
    (startStreaming st).1.base = getEffectiveProgress st ∧
    (startStreaming st).1.isStreaming = false ∧
    (startStreaming st).1.readChars = st.readChars ∧
    (startStreaming st).1.text = st.text ∧
    (startStreaming st).1.progress = 0 := by
  unfold startStreaming stopAudio
  simp [hs]

theorem resume_fields (st : UiState) (hs : st.isStreaming = false)
    (hsl : sliceTextFromPercent st.text st.base ≠ []) :
    (startStreaming st).1.base = st.base ∧
    (startStreaming st).1.isStreaming = true ∧
    (startStreaming st).2 = some (sliceTextFromPercent st.text st.base) := by
  unfold startStreaming
  rw [if_neg (by simp [hs])]
  unfold startStreamingFrom
  rw [orZero_eq]
  rw [if_neg hsl]
  unfold stopAudio
  simp

/-- C5: pausing while streaming captures effective progress
`P = base + streamingProgress * (1 - base/100)` (the `min 100` cap is
inactive for in-range inputs), stops the pipeline without touching the
read-character offset, and stores `P` as the new base; resuming starts a new
session whose base equals `P` and whose emitted text is the suffix of the
source starting at or after the character position for `P` percent; the
50-base, 50-progress instance yields 75. -/
theorem pause_resume_spec :
    (∀ st : UiState, st.isStreaming = true →
      0 ≤ st.base → st.base ≤ 100 → 0 ≤ st.progress → st.progress ≤ 100 →
      sliceTextFromPercent st.text (st.base + st.progress * (1 - st.base / 100)) ≠ [] →
      getEffectiveProgress st = st.base + st.progress * (1 - st.base / 100) ∧
      (startStreaming st).1.base = st.base + st.progress * (1 - st.base / 100) ∧
      (startStreaming st).1.isStreaming = false ∧
      (startStreaming st).1.readChars = st.readChars ∧
      (startStreaming (startStreaming st).1).1.base
          = st.base + st.progress * (1 - st.base / 100) ∧
      (startStreaming (startStreaming st).1).1.isStreaming = true ∧
      (startStreaming (startStreaming st).1).2
          = some (st.text.drop
              (sliceStart st.text (st.base + st.progress * (1 - st.base / 100)))) ∧
      offsetChars st.text (st.base + st.progress * (1 - st.base / 100))
          ≤ sliceStart st.text (st.base + st.progress * (1 - st.base / 100))) ∧
    getEffectiveProgress ⟨50, 50, true, "", [], 0⟩ = 75 := by
  constructor
  · intro st hs hb0 hb1 hp0 hp1 hsl
    have hcap : st.base + st.progress * (1 - st.base / 100) ≤ 100 :=
      effective_le st.base st.progress hb0 hb1 hp0 hp1
    have hnn : 0 ≤ st.base + st.progress * (1 - st.base / 100) :=
      effective_nonneg st.base st.progress hb0 hb1 hp0
    have heff : getEffectiveProgress st = st.base + st.progress * (1 - st.base / 100) := by
      unfold getEffectiveProgress
      exact min_eq_right hcap
    obtain ⟨pb, pstream, prc, ptext, pprog⟩ := pause_fields st hs
    have htext : st.text ≠ [] := by
      intro habs
      exact hsl (by simp [sliceTextFromPercent, habs])
    have hsl2 : sliceTextFromPercent (startStreaming st).1.text
        ((startStreaming st).1.base) ≠ [] := by
      rw [ptext, pb, heff]
      exact hsl
    obtain ⟨rb, rstream, remit⟩ := resume_fields (startStreaming st).1 pstream hsl2
    have hdrop : sliceTextFromPercent st.text (st.base + st.progress * (1 - st.base / 100))
        = st.text.drop (sliceStart st.text (st.base + st.progress * (1 - st.base / 100))) := by
      simp [sliceTextFromPercent, htext]
    refine ⟨heff, pb.trans heff, pstream, prc, ?_, rstream, ?_, ?_⟩
    · rw [rb, pb, heff]
    · rw [remit, ptext, pb, heff, hdrop]
    · exact sliceStart_ge st.text _ hnn hcap
  · have : ((50 : ℚ) + 50 * (1 - 50 / 100)) = 75 := by norm_num
    unfold getEffectiveProgress
    dsimp only
    rw [min_eq_right (by norm_num)]
    norm_num

/-- C5 witness: pausing the 50-base, 50-progress session over
"aa bb cc dd" stores base 75. -/
theorem pause_resume_spec_witness :
    (startStreaming ⟨50, 50, true, "paused", "aa bb cc dd".toList, 4⟩).1.base = 75 := by
  have hsl : sliceTextFromPercent ("aa bb cc dd".toList)
      ((50 : ℚ) + 50 * (1 - 50 / 100)) ≠ [] := by
    rw [show ((50 : ℚ) + 50 * (1 - 50 / 100)) = 75 from by norm_num]
    have hlen : ("aa bb cc dd".toList).length = 11 := rfl
    have hoff : offsetChars ("aa bb cc dd".toList) 75 = 8 := by
      unfold offsetChars
      rw [hlen]
      rw [show ⌊(75 : ℚ) / 100 * ((11 : ℕ) : ℚ)⌋ = 8 from by norm_num]
      rfl
    have hidx : indexOfFrom ("aa bb cc dd".toList) ' ' (8 + 1) = none := by decide
    have hss : sliceStart ("aa bb cc dd".toList) 75 = 8 := by
      rw [sliceStart_eq _ _ (by decide) (by decide), hoff, hidx]
    simp only [sliceTextFromPercent]
    rw [if_neg (by decide), hss]
    decide
  have h := (pause_resume_spec.1 ⟨50, 50, true, "paused", "aa bb cc dd".toList, 4⟩ rfl
    (by decide) (by decide) (by decide) (by decide) hsl).2.1
  rw [h]
  norm_num

/-! ## Chunker lemmas -/

theorem searchDown_some {pred : Nat → Bool} :
    ∀ {n p : Nat}, searchDown pred n = some p → 1 ≤ p ∧ p ≤ n ∧ pred p = true := by
  intro n
  induction n with
  | zero =>
    intro p h
    simp [searchDown] at h
  | succ n ih =>
    intro p h
    unfold searchDown at h
    split at h
    · rename_i hp
      have := Option.some.inj h
      subst this
      exact ⟨by omega, le_refl _, hp⟩
    · obtain ⟨h1, h2, h3⟩ := ih h
      exact ⟨h1, by omega, h3⟩

theorem searchDown_none {pred : Nat → Bool} (h : ∀ p : Nat, pred p = false) :
    ∀ n, searchDown pred n = none := by
  intro n
  induction n with
  | zero => rfl
  | succ n ih =>
    unfold searchDown
    rw [h (n + 1)]
    simpa using ih

theorem findSplit_some {s : List Char} {target p : Nat}
    (h : findSplit s target = some p) :
    1 ≤ p ∧ p ≤ s.length ∧
      (cutTier1 s p = true ∨ cutTier2 s p = true ∨ cutTier3 s p = true) := by
  unfold findSplit at h
  cases h1 : searchDown (cutTier1 s) (min target s.length) with
  | some q =>
    rw [h1] at h
    simp only [Option.orElse] at h
    have := Option.some.inj h
    subst this
    obtain ⟨a1, a2, a3⟩ := searchDown_some h1
    exact ⟨a1, le_trans a2 (min_le_right _ _), Or.inl a3⟩
  | none =>
    rw [h1] at h
    simp only [Option.orElse] at h
    cases h2 : searchDown (cutTier2 s) (min target s.length) with
    | some q =>
      rw [h2] at h
      simp only [Option.orElse] at h
      have := Option.some.inj h
      subst this
      obtain ⟨a1, a2, a3⟩ := searchDown_some h2
      exact ⟨a1, le_trans a2 (min_le_right _ _), Or.inr (Or.inl a3)⟩
    | none =>
      rw [h2] at h
      simp only [Option.orElse] at h
      obtain ⟨a1, a2, a3⟩ := searchDown_some h
      exact ⟨a1, le_trans a2 (min_le_right _ _), Or.inr (Or.inr a3)⟩

theorem findSplit_none_deg {s : List Char} (target : Nat)
    (h : ∀ c ∈ s, isWhite c = false ∧ isSentencePunct c = false ∧ isClausePunct c = false) :
    findSplit s target = none := by
  have h1 : ∀ p : Nat, cutTier1 s p = false := by
    intro p
    unfold cutTier1
    cases hc : s[p - 1]? with
    | none => rfl
    | some c =>
      have := (h c (List.getElem?_mem hc)).2.1
      simp [this]
  have h2 : ∀ p : Nat, cutTier2 s p = false := by
    intro p
    unfold cutTier2
    cases hc : s[p - 1]? with
    | none => rfl
    | some c =>
      have := (h c (List.getElem?_mem hc)).2.2
      simp [this]
  have h3 : ∀ p : Nat, cutTier3 s p = false := by
    intro p
    unfold cutTier3
    cases hc : s[p - 1]? with
    | none => rfl
    | some c =>
      exact (h c (List.getElem?_mem hc)).1
  unfold findSplit
  rw [searchDown_none h1, searchDown_none h2, searchDown_none h3]
  rfl

theorem head?_take {s : List Char} {q : Nat} (h : 1 ≤ q) : (s.take q).head? = s.head? := by
  cases s with
  | nil => simp
  | cons a t =>
    cases q with
    | zero => omega
    | succ n => simp [List.take_succ_cons]

theorem getLast?_take_eq {s : List Char} {p : Nat} (h1 : 1 ≤ p) (h2 : p ≤ s.length) :
    (s.take p).getLast? = s[p - 1]? := by
  rw [List.getLast?_eq_getElem?]
  have hl : (s.take p).length = p := by
    rw [List.length_take]
    omega
  rw [hl, List.getElem?_take, if_pos (by omega)]

theorem boundaryOkB_of_last {a b : List Char} {c : Char} (h : a.getLast? = some c)
    (hw : isWhite c = true) : boundaryOkB a b = true := by
  unfold boundaryOkB
  rw [h]
  simp [hw]

theorem boundaryOkB_of_head {a b : List Char} {c : Char} (h : b.head? = some c)
    (hw : isWhite c = true) : boundaryOkB a b = true := by
  unfold boundaryOkB
  rw [h]
  simp [hw]

theorem whiteAfter_cases {s : List Char} {p : Nat} (h : whiteAfter s p = true) :
    p = s.length ∨ ∃ c, s[p]? = some c ∧ isWhite c = true := by
  unfold whiteAfter at h
  rcases Bool.or_eq_true_iff.mp h with h | h
  · exact Or.inl (by simpa using h)
  · cases hc : s[p]? with
    | none => rw [hc] at h; simp at h
    | some c =>
      rw [hc] at h
      exact Or.inr ⟨c, rfl, h⟩

theorem cutTier3_white {s : List Char} {p : Nat} (h : cutTier3 s p = true) :
    ∃ c, s[p - 1]? = some c ∧ isWhite c = true := by
  unfold cutTier3 at h
  cases hc : s[p - 1]? with
  | none => rw [hc] at h; simp at h
  | some c =>
    rw [hc] at h
    exact ⟨c, rfl, h⟩

theorem splitTextSmart_head (s : List Char) (target : Nat) (hs : s ≠ []) :
    ∃ c cs, splitTextSmart s target = c :: cs ∧ c.head? = s.head? := by
  unfold splitTextSmart
  rw [dif_neg hs]
  split
  · exact ⟨s, [], rfl, rfl⟩
  · split
    · exact ⟨s, [], rfl, rfl⟩
    · rename_i p hp
      exact ⟨s.take (max 1 p), _, rfl, head?_take (le_max_left _ _)⟩

theorem splitTextSmart_join_aux :
    ∀ (n : Nat) (s : List Char) (target : Nat), s.length ≤ n →
      (splitTextSmart s target).join = s := by
  intro n
  induction n with
  | zero =>
    intro s target hlen
    have hs : s = [] := List.eq_nil_of_length_eq_zero (by omega)
    unfold splitTextSmart
    rw [dif_pos hs, hs]
    rfl
  | succ n ih =>
    intro s target hlen
    unfold splitTextSmart
    split
    · rename_i hs
      rw [hs]
      rfl
    · rename_i hs
      split
      · simp
      · rename_i hlt
        split
        · simp
        · rename_i p hp
          obtain ⟨hp1, hps, _⟩ := findSplit_some hp
          have hq : max 1 p = p := max_eq_right hp1
          rw [hq]
          have hrec : (splitTextSmart (s.drop p) target).join = s.drop p := by
            apply ih
            have hdl : (s.drop p).length = s.length - p := List.length_drop _ _
            have hs1 : 0 < s.length := List.length_pos.mpr hs
            omega
          simp only [List.join_cons, hrec]
          exact List.take_append_drop p s

theorem splitTextSmart_ne_nil_aux :
    ∀ (n : Nat) (s : List Char) (target : Nat), s.length ≤ n →
      ∀ c ∈ splitTextSmart s target, c ≠ [] := by
  intro n
  induction n with
  | zero =>
    intro s target hlen c hc
    have hs : s = [] := List.eq_nil_of_length_eq_zero (by omega)
    unfold splitTextSmart at hc
    rw [dif_pos hs] at hc
    simp at hc
  | succ n ih =>
    intro s target hlen c hc
    unfold splitTextSmart at hc
    split at hc
    · simp at hc
    · rename_i hs
      split at hc
      · simp at hc
        subst hc
        exact hs
      · rename_i hlt
        split at hc
        · simp at hc
          subst hc
          exact hs
        · rename_i p hp
          obtain ⟨hp1, hps, _⟩ := findSplit_some hp
          have hq : max 1 p = p := max_eq_right hp1
          rw [hq] at hc
          rcases List.mem_cons.mp hc with hc | hc
          · subst hc
            intro habs
            rcases List.take_eq_nil_iff.mp habs with h0 | h0
            · omega
            · exact hs h0
          · apply ih (s.drop p) target _ c hc
            have hdl : (s.drop p).length = s.length - p := List.length_drop _ _
            have hs1 : 0 < s.length := List.length_pos.mpr hs
            omega

theorem splitTextSmart_chain_aux :
    ∀ (n : Nat) (s : List Char) (target : Nat), s.length ≤ n →
      List.Chain' (fun a b => boundaryOkB a b = true) (splitTextSmart s target) := by
  intro n
  induction n with
  | zero =>
    intro s target hlen
    have hs : s = [] := List.eq_nil_of_length_eq_zero (by omega)
    unfold splitTextSmart
    rw [dif_pos hs]
    exact List.chain'_nil
  | succ n ih =>
    intro s target hlen
    unfold splitTextSmart
    split
    · exact List.chain'_nil
    · rename_i hs
      split
      · exact List.chain'_singleton _
      · rename_i hlt
        split
        · exact List.chain'_singleton _
        · rename_i p hp
          obtain ⟨hp1, hps, htier⟩ := findSplit_some hp
          have hq : max 1 p = p := max_eq_right hp1
          rw [hq]
          rw [List.chain'_cons']
          constructor
          · intro b hb
            cases hdrop : s.drop p with
            | nil =>
              rw [hdrop] at hb
              unfold splitTextSmart at hb
              rw [dif_pos rfl] at hb
              simp at hb
            | cons x xs =>
              have hne : s.drop p ≠ [] := by
                rw [hdrop]
                simp
              obtain ⟨c0, cs0, hchunks, hhead⟩ := splitTextSmart_head (s.drop p) target hne
              rw [hchunks] at hb
              have hb2 : c0 = b := by simpa using hb
              subst hb2
              have hc0 : c0.head? = s[p]? := by
                rw [hhead, List.head?_drop]
              have hplen : p < s.length := by
                by_contra habs
                push_neg at habs
                have : s.drop p = [] := List.drop_eq_nil_of_le habs
                rw [this] at hdrop
                exact absurd hdrop (by simp)
              rcases htier with ht | ht | ht
              · have hw := (Bool.and_eq_true _ _ ▸ ht).2
                rcases whiteAfter_cases hw with he | ⟨c1, hc1, hw1⟩
                · omega
                · exact boundaryOkB_of_head (hc0.trans hc1) hw1
              · have hw := (Bool.and_eq_true _ _ ▸ ht).2
                rcases whiteAfter_cases hw with he | ⟨c1, hc1, hw1⟩
                · omega
                · exact boundaryOkB_of_head (hc0.trans hc1) hw1
              · obtain ⟨c1, hc1, hw1⟩ := cutTier3_white ht
                exact boundaryOkB_of_last ((getLast?_take_eq hp1 hps).trans hc1) hw1
          · apply ih
            have hdl : (s.drop p).length = s.length - p := List.length_drop _ _
            have hs1 : 0 < s.length := List.length_pos.mpr hs
            omega

theorem splitTextSmart_degenerate {s : List Char} (target : Nat) (hs : s ≠ [])
    (h : ∀ c ∈ s, isWhite c = false ∧ isSentencePunct c = false ∧ isClausePunct c = false) :
    splitTextSmart s target = [s] := by
  unfold splitTextSmart
  rw [dif_neg hs]
  split
  · rfl
  · rw [findSplit_none_deg target h]

/-- C6: for every non-empty input and target size, the spec-modelled
`splitTextSmart` terminates with at least one chunk, every chunk is
non-empty, concatenating the chunks reconstructs the input exactly, every
boundary between adjacent chunks touches whitespace (never inside a word),
and degenerate input with no whitespace and no punctuation comes back as a
single chunk equal to the whole input. -/
theorem chunker_spec :
    ∀ (s : List Char) (target : Nat), s ≠ [] →
      splitTextSmart s target ≠ [] ∧
      (∀ c ∈ splitTextSmart s target, c ≠ []) ∧
      (splitTextSmart s target).join = s ∧
      List.Chain' (fun a b => boundaryOkB a b = true) (splitTextSmart s target) ∧
      ((∀ c ∈ s, isWhite c = false ∧ isSentencePunct c = false ∧ isClausePunct c = false) →
        splitTextSmart s target = [s]) := by
  intro s target hs
  have hjoin := splitTextSmart_join_aux s.length s target (le_refl _)
  refine ⟨?_, splitTextSmart_ne_nil_aux s.length s target (le_refl _), hjoin,
    splitTextSmart_chain_aux s.length s target (le_refl _),
    fun h => splitTextSmart_degenerate target hs h⟩
  intro habs
  rw [habs] at hjoin
  exact hs hjoin.symm

/-- C6 witness: the theorem applied to the spec's scenario text. -/
theorem chunker_spec_witness :
    (splitTextSmart ("Hello world. Pause here, then continue.".toList) 20).join
      = "Hello world. Pause here, then continue.".toList :=
  (chunker_spec ("Hello world. Pause here, then continue.".toList) 20 (by decide)).2.2.1

end EpubReader
